import Mathlib

/-!
Verification of the Kurdish text normalization / tokenization / stemming core
(`src/kurdish_nltk.py`) of the Hakari-Bibani/OCR repository.

A Python string is embedded as a `List Nat` of Unicode code points.  The two
external library facilities the code relies on — `unicodedata.normalize('NFD', ·)`
and the general-category test `category(c).startswith('Mn')` — are modelled by
`nfdChar`/`nfd` and `isMn` below: a per-code-point canonical-decomposition table
that agrees with the Unicode character database on the Arabic-block characters
the module manipulates (in particular U+0622..U+0626, whose canonical
decompositions end in non-spacing marks) and is the identity elsewhere, and the
non-spacing-mark (Mn) ranges of the Arabic and Combining Diacritical Marks
blocks.  Python `str.strip` is modelled by `pyStrip` over the Unicode
whitespace set, and `re.findall` for the two patterns of the module is modelled
by the equivalent left-to-right scans `wordRunsAux` / `sentScanAux`.
-/

namespace KurdishNltk

/-- Modelled from the external `unicodedata` library: `isMn c` holds when the
code point `c` has Unicode general category Mn (non-spacing mark).  Covers the
Combining Diacritical Marks block and the Mn ranges of the Arabic block
(harakat and the combining hamza/madda marks U+0653..U+0655 among them). -/
def isMn (c : Nat) : Bool :=
  (0x300 ≤ c && c ≤ 0x36F) ||
  (0x610 ≤ c && c ≤ 0x61A) ||
  (0x64B ≤ c && c ≤ 0x65F) ||
  c == 0x670 ||
  (0x6D6 ≤ c && c ≤ 0x6DC) ||
  (0x6DF ≤ c && c ≤ 0x6E4) ||
  c == 0x6E7 || c == 0x6E8 ||
  (0x6EA ≤ c && c ≤ 0x6ED)

/-- Modelled from the external `unicodedata` library: the full canonical (NFD)
decomposition of a single code point.  The table lists the precomposed Arabic
letters relevant to the module — alef with madda (U+0622), alef with hamza
above/below (U+0623/U+0625), waw with hamza (U+0624) and yeh with hamza
(U+0626, the Kurdish `ئ`), whose decomposition `U+064A U+0654` is what the
Unicode database prescribes — and is the identity on every other code point
(none of the plain Kurdish Sorani letters has a canonical decomposition). -/
def nfdChar (c : Nat) : List Nat :=
  if c == 0x622 then [0x627, 0x653]
  else if c == 0x623 then [0x627, 0x654]
  else if c == 0x624 then [0x648, 0x654]
  else if c == 0x625 then [0x627, 0x655]
  else if c == 0x626 then [0x64A, 0x654]
  else [c]

/-- `unicodedata.normalize('NFD', text)`: concatenation of the per-code-point
canonical decompositions. -/
def nfd : List Nat → List Nat
  | [] => []
  | c :: rest => nfdChar c ++ nfd rest

/-- `text.replace('ه‌', 'ە')`: left-to-right non-overlapping replacement of
the two-code-point sequence HEH (U+0647) + ZWNJ (U+200C) by AE (U+06D5). -/
def replaceHehZwnj : List Nat → List Nat
  | 0x647 :: 0x200C :: rest => 0x6D5 :: replaceHehZwnj rest
  | c :: rest => c :: replaceHehZwnj rest
  | [] => []

/-- Modelled from Python: the code points `str.strip()` removes (the `str`
whitespace set). -/
def isPySpace (c : Nat) : Bool :=
  c == 0x20 || (0x9 ≤ c && c ≤ 0xD) || (0x1C ≤ c && c ≤ 0x1F) ||
  c == 0x85 || c == 0xA0 || c == 0x1680 || (0x2000 ≤ c && c ≤ 0x200A) ||
  c == 0x2028 || c == 0x2029 || c == 0x202F || c == 0x205F || c == 0x3000

/-- Python `str.strip()`: drop leading and trailing whitespace. -/
def pyStrip (s : List Nat) : List Nat :=
  ((s.dropWhile isPySpace).reverse.dropWhile isPySpace).reverse

namespace KurdishTokenizer

/-- `KurdishTokenizer.normalize` (src/kurdish_nltk.py lines 25-45): replace
Arabic KAF U+0643 by U+06A9, Arabic YEH U+064A by U+06CC, HEH+ZWNJ by U+06D5,
then NFD-decompose and drop non-spacing marks, then remove ZWNJ U+200C. -/
def normalize (s : List Nat) : List Nat :=
  let s1 := s.map fun c => if c == 0x643 then 0x6A9 else c
  let s2 := s1.map fun c => if c == 0x64A then 0x6CC else c
  let s3 := replaceHehZwnj s2
  let s4 := (nfd s3).filter fun c => !isMn c
  s4.filter fun c => c != 0x200C

/-- The character class of `word_pattern` (src/kurdish_nltk.py line 22):
`[\w؀-ۿݐ-ݿࢠ-ࣿﭐ-﷿ﹰ-﻿]`.
`\w` is modelled by the ASCII word characters; the listed Arabic blocks cover
every non-ASCII character the claims touch. -/
def isWordChar (c : Nat) : Bool :=
  (0x30 ≤ c && c ≤ 0x39) || (0x41 ≤ c && c ≤ 0x5A) || c == 0x5F ||
  (0x61 ≤ c && c ≤ 0x7A) ||
  (0x600 ≤ c && c ≤ 0x6FF) || (0x750 ≤ c && c ≤ 0x77F) ||
  (0x8A0 ≤ c && c ≤ 0x8FF) || (0xFB50 ≤ c && c ≤ 0xFDFF) ||
  (0xFE70 ≤ c && c ≤ 0xFEFF)

/-- `word_pattern.findall`: the maximal runs of characters satisfying `p`, in
left-to-right order.  `acc` holds the current run, reversed. -/
def wordRunsAux (p : Nat → Bool) : List Nat → List Nat → List (List Nat)
  | acc, [] => if acc.isEmpty then [] else [acc.reverse]
  | acc, c :: rest =>
    if p c then wordRunsAux p (c :: acc) rest
    else if acc.isEmpty then wordRunsAux p [] rest
    else acc.reverse :: wordRunsAux p [] rest

/-- `KurdishTokenizer.tokenize` (src/kurdish_nltk.py lines 47-60): normalize,
find all word runs, keep those that are non-empty after stripping. -/
def tokenize (s : List Nat) : List (List Nat) :=
  (wordRunsAux isWordChar [] (normalize s)).filter fun w => !(pyStrip w).isEmpty

/-- The terminator class of `sentence_pattern` (src/kurdish_nltk.py line 23):
`.`, `!`, `?`. -/
def isTerm (c : Nat) : Bool := c == 0x2E || c == 0x21 || c == 0x3F

/-- `sentence_pattern.findall` for `[^\.!\?]+[\.!\?]`: scan left to right,
accumulating non-terminators (reversed in `acc`); a terminator closes a match
when at least one non-terminator precedes it, otherwise it is skipped; a
trailing run with no terminator is not emitted. -/
def sentScanAux : List Nat → List Nat → List (List Nat)
  | _, [] => []
  | acc, c :: rest =>
    if isTerm c then
      if acc.isEmpty then sentScanAux [] rest
      else (acc.reverse ++ [c]) :: sentScanAux [] rest
    else sentScanAux (c :: acc) rest

/-- `KurdishTokenizer.sentence_tokenize` (src/kurdish_nltk.py lines 62-76):
normalize, find `sentence_pattern` matches, fall back to the whole text when
no match was found and the stripped text is non-empty, then strip each
sentence and drop the ones that strip to empty. -/
def sentence_tokenize (s : List Nat) : List (List Nat) :=
  let t := normalize s
  let raw := sentScanAux [] t
  let sents := if raw.isEmpty && !(pyStrip t).isEmpty then [t] else raw
  (sents.map pyStrip).filter fun x => !x.isEmpty

end KurdishTokenizer

namespace KurdishStemmer

/-- `KurdishStemmer.prefixes` (src/kurdish_nltk.py line 85):
`نە, بە, دە, هەڵ, دا, ڕا`, in list order. -/
def prefixes : List (List Nat) :=
  [[0x646, 0x6D5], [0x628, 0x6D5], [0x62F, 0x6D5],
   [0x647, 0x6D5, 0x6B5], [0x62F, 0x627], [0x695, 0x627]]

/-- `KurdishStemmer.suffixes` (src/kurdish_nltk.py line 86):
`ەکان, ەکە, ێک, ان, یش, ە, ی, م, ت, ی, مان, تان, یان`, in list order,
the duplicate `ی` included. -/
def suffixes : List (List Nat) :=
  [[0x6D5, 0x6A9, 0x627, 0x646], [0x6D5, 0x6A9, 0x6D5], [0x6CE, 0x6A9],
   [0x627, 0x646], [0x6CC, 0x634], [0x6D5], [0x6CC], [0x645], [0x62A],
   [0x6CC], [0x645, 0x627, 0x646], [0x62A, 0x627, 0x646],
   [0x6CC, 0x627, 0x646]]

/-- The prefix loop of `KurdishStemmer.stem` (src/kurdish_nltk.py lines
96-99): take the first listed prefix that starts the word and satisfies
`len(stemmed) > len(prefix) + 2`, drop it, and stop. -/
def stemPrefixLoop : List (List Nat) → List Nat → List Nat
  | [], w => w
  | p :: ps, w =>
    if p.isPrefixOf w ∧ p.length + 2 < w.length then w.drop p.length
    else stemPrefixLoop ps w

/-- The suffix loop of `KurdishStemmer.stem` (src/kurdish_nltk.py lines
102-105): take the first listed suffix that ends the word and satisfies
`len(stemmed) > len(suffix) + 2`, cut it off, and stop. -/
def stemSuffixLoop : List (List Nat) → List Nat → List Nat
  | [], w => w
  | x :: xs, w =>
    if x.isSuffixOf w ∧ x.length + 2 < w.length then w.take (w.length - x.length)
    else stemSuffixLoop xs w

/-- `KurdishStemmer.stem` (src/kurdish_nltk.py lines 88-107): at most one
prefix removal followed by at most one suffix removal. -/
def stem (w : List Nat) : List Nat :=
  stemSuffixLoop suffixes (stemPrefixLoop prefixes w)

end KurdishStemmer

end KurdishNltk

namespace KurdishNltk

/-! ## Helper lemmas about the normalization pipeline -/

theorem mem_nfd {c : Nat} : ∀ {s : List Nat}, c ∈ nfd s → ∃ d ∈ s, c ∈ nfdChar d := by
  intro s
  induction s with
  | nil => intro h; simp [nfd] at h
  | cons a s ih =>
    intro h
    rw [nfd] at h
    rcases List.mem_append.mp h with h | h
    · exact ⟨a, List.mem_cons_self a s, h⟩
    · obtain ⟨d, hd, hcd⟩ := ih h
      exact ⟨d, List.mem_cons_of_mem _ hd, hcd⟩

theorem nfd_eq_self : ∀ {s : List Nat}, (∀ c ∈ s, nfdChar c = [c]) → nfd s = s := by
  intro s
  induction s with
  | nil => intro _; rfl
  | cons a s ih =>
    intro h
    rw [nfd, h a (List.mem_cons_self a s), ih fun c hc => h c (List.mem_cons_of_mem _ hc)]
    rfl

theorem replaceHehZwnj_mem {c : Nat} : ∀ {s : List Nat},
    c ∈ replaceHehZwnj s → c = 0x6D5 ∨ c ∈ s := by
  intro s
  induction s using replaceHehZwnj.induct with
  | case1 rest ih =>
    intro h
    rw [replaceHehZwnj] at h
    rcases List.mem_cons.mp h with h | h
    · exact Or.inl h
    · rcases ih h with h | h
      · exact Or.inl h
      · exact Or.inr (by simp [h])
  | case2 d rest hne ih =>
    intro h
    rw [replaceHehZwnj.eq_2 _ _ hne] at h
    rcases List.mem_cons.mp h with h | h
    · exact Or.inr (by simp [h])
    · rcases ih h with h | h
      · exact Or.inl h
      · exact Or.inr (by simp [h])
  | case3 => intro h; simp [replaceHehZwnj] at h

theorem replaceHehZwnj_eq_self : ∀ {s : List Nat},
    (0x200C : Nat) ∉ s → replaceHehZwnj s = s := by
  intro s
  induction s using replaceHehZwnj.induct with
  | case1 rest ih => intro h; simp at h
  | case2 d rest hne ih =>
    intro h
    rw [replaceHehZwnj.eq_2 _ _ hne, ih fun hm => h (List.mem_cons_of_mem _ hm)]
  | case3 => intro _; rfl

theorem map_id_of {f : Nat → Nat} : ∀ {s : List Nat}, (∀ c ∈ s, f c = c) → s.map f = s := by
  intro s
  induction s with
  | nil => intro _; rfl
  | cons a s ih =>
    intro h
    rw [List.map_cons, h a (List.mem_cons_self a s), ih fun c hc => h c (List.mem_cons_of_mem _ hc)]

theorem nfdChar_cases (d : Nat) :
    d = 0x622 ∨ d = 0x623 ∨ d = 0x624 ∨ d = 0x625 ∨ d = 0x626 ∨ nfdChar d = [d] := by
  unfold nfdChar
  split_ifs with h1 h2 h3 h4 h5 <;> simp_all [beq_iff_eq]

/-- Every code point of a normalized string is a non-mark, non-ZWNJ character
with identity decomposition, is not Arabic KAF, and can be Arabic YEH U+064A
only when the input contained U+0626. -/
theorem normalize_mem {s : List Nat} {c : Nat} (h : c ∈ KurdishTokenizer.normalize s) :
    isMn c = false ∧ c ≠ 0x200C ∧ c ≠ 0x643 ∧ nfdChar c = [c] ∧
      (c = 0x64A → (0x626 : Nat) ∈ s) := by
  simp only [KurdishTokenizer.normalize, List.mem_filter] at h
  obtain ⟨⟨h, hmn⟩, hz⟩ := h
  obtain ⟨d, hd, hcd⟩ := mem_nfd h
  have hzw : c ≠ 0x200C := by simpa [bne_iff_ne] using hz
  have hmn' : isMn c = false := by simpa using hmn
  have hdfacts : d ≠ 0x643 ∧ d ≠ 0x64A ∧ (d = 0x626 → (0x626 : Nat) ∈ s) := by
    rcases replaceHehZwnj_mem hd with h6 | hd2
    · subst h6
      exact ⟨by decide, by decide, fun hh => absurd hh (by decide)⟩
    · obtain ⟨e, he, hfe⟩ := List.mem_map.mp hd2
      obtain ⟨g, hg, hfg⟩ := List.mem_map.mp he
      by_cases h64 : e = 0x64A
      · have : d = 0x6CC := by simp [h64] at hfe; omega
        subst this
        exact ⟨by decide, by decide, fun hh => absurd hh (by decide)⟩
      · have hde : d = e := by
          rw [← hfe]; simp [beq_iff_eq, h64]
        by_cases hg643 : g = 0x643
        · have : e = 0x6A9 := by simp [hg643] at hfg; omega
          subst hde; subst this
          exact ⟨by decide, by decide, fun hh => absurd hh (by decide)⟩
        · have hge : e = g := by
            rw [← hfg]; simp [beq_iff_eq, hg643]
          subst hde; subst hge
          exact ⟨hg643, h64, fun hh => hh ▸ hg⟩
  rcases nfdChar_cases d with h' | h' | h' | h' | h' | h'
  · subst h'
    rcases (by simpa [nfdChar] using hcd : c = 0x627 ∨ c = 0x653) with hc | hc <;> subst hc
    · exact ⟨by decide, by decide, by decide, by decide, fun hh => absurd hh (by decide)⟩
    · exact absurd hmn' (by decide)
  · subst h'
    rcases (by simpa [nfdChar] using hcd : c = 0x627 ∨ c = 0x654) with hc | hc <;> subst hc
    · exact ⟨by decide, by decide, by decide, by decide, fun hh => absurd hh (by decide)⟩
    · exact absurd hmn' (by decide)
  · subst h'
    rcases (by simpa [nfdChar] using hcd : c = 0x648 ∨ c = 0x654) with hc | hc <;> subst hc
    · exact ⟨by decide, by decide, by decide, by decide, fun hh => absurd hh (by decide)⟩
    · exact absurd hmn' (by decide)
  · subst h'
    rcases (by simpa [nfdChar] using hcd : c = 0x627 ∨ c = 0x655) with hc | hc <;> subst hc
    · exact ⟨by decide, by decide, by decide, by decide, fun hh => absurd hh (by decide)⟩
    · exact absurd hmn' (by decide)
  · subst h'
    rcases (by simpa [nfdChar] using hcd : c = 0x64A ∨ c = 0x654) with hc | hc <;> subst hc
    · exact ⟨by decide, by decide, by decide, by decide, fun _ => hdfacts.2.2 rfl⟩
    · exact absurd hmn' (by decide)
  · rw [h'] at hcd
    have hce : c = d := by simpa using hcd
    subst hce
    exact ⟨hmn', hzw, hdfacts.1, h', fun hy => absurd hy hdfacts.2.1⟩

/-- A string whose code points are all fixed by every stage of the pipeline is
fixed by `normalize`. -/
theorem normalize_fixed {s : List Nat}
    (h : ∀ c ∈ s, isMn c = false ∧ c ≠ 0x200C ∧ c ≠ 0x643 ∧ c ≠ 0x64A ∧ nfdChar c = [c]) :
    KurdishTokenizer.normalize s = s := by
  have h1 : s.map (fun c => if c == 0x643 then 0x6A9 else c) = s :=
    map_id_of fun c hc => by simp [beq_iff_eq, (h c hc).2.2.1]
  have h2 : s.map (fun c => if c == 0x64A then 0x6CC else c) = s :=
    map_id_of fun c hc => by simp [beq_iff_eq, (h c hc).2.2.2.1]
  have h3 : replaceHehZwnj s = s := replaceHehZwnj_eq_self fun hm => (h _ hm).2.1 rfl
  have h4 : nfd s = s := nfd_eq_self fun c hc => (h c hc).2.2.2.2
  have h5 : s.filter (fun c => !isMn c) = s :=
    List.filter_eq_self.mpr fun c hc => by simp [(h c hc).1]
  have h6 : s.filter (fun c => c != 0x200C) = s :=
    List.filter_eq_self.mpr fun c hc => by simp [bne_iff_ne, (h c hc).2.1]
  simp only [KurdishTokenizer.normalize]
  rw [h1, h2, h3, h4, h5, h6]

theorem normalize_good_of_no_hamza {s : List Nat} (h : (0x626 : Nat) ∉ s) :
    ∀ c ∈ KurdishTokenizer.normalize s,
      isMn c = false ∧ c ≠ 0x200C ∧ c ≠ 0x643 ∧ c ≠ 0x64A ∧ nfdChar c = [c] := by
  intro c hc
  obtain ⟨hmn, hzw, hkaf, hnfd, hyeh⟩ := normalize_mem hc
  exact ⟨hmn, hzw, hkaf, fun hy => h (hyeh hy), hnfd⟩

theorem normalize_normalize {s : List Nat} (h : (0x626 : Nat) ∉ s) :
    KurdishTokenizer.normalize (KurdishTokenizer.normalize s) =
      KurdishTokenizer.normalize s :=
  normalize_fixed (normalize_good_of_no_hamza h)

/-! ## Helper lemmas about the tokenizer -/

theorem wordRunsAux_mem {p : Nat → Bool} :
    ∀ (l acc t : List Nat), t ∈ KurdishTokenizer.wordRunsAux p acc l →
      ∀ c ∈ t, c ∈ acc ∨ c ∈ l := by
  intro l
  induction l with
  | nil =>
    intro acc t ht c hc
    simp only [KurdishTokenizer.wordRunsAux] at ht
    split at ht
    · simp at ht
    · simp only [List.mem_singleton] at ht
      subst ht
      exact Or.inl (List.mem_reverse.mp hc)
  | cons a l ih =>
    intro acc t ht c hc
    simp only [KurdishTokenizer.wordRunsAux] at ht
    split at ht
    · rcases ih _ _ ht c hc with h | h
      · rcases List.mem_cons.mp h with h | h
        · exact Or.inr (by simp [h])
        · exact Or.inl h
      · exact Or.inr (List.mem_cons_of_mem _ h)
    · split at ht
      · rcases ih _ _ ht c hc with h | h
        · simp at h
        · exact Or.inr (List.mem_cons_of_mem _ h)
      · rcases List.mem_cons.mp ht with h | h
        · subst h
          exact Or.inl (List.mem_reverse.mp hc)
        · rcases ih _ _ h c hc with h' | h'
          · simp at h'
          · exact Or.inr (List.mem_cons_of_mem _ h')

theorem tokenize_subset {s t : List Nat} (ht : t ∈ KurdishTokenizer.tokenize s) :
    ∀ c ∈ t, c ∈ KurdishTokenizer.normalize s := by
  intro c hc
  simp only [KurdishTokenizer.tokenize] at ht
  have ht' := (List.mem_filter.mp ht).1
  rcases wordRunsAux_mem _ _ _ ht' c hc with h | h
  · simp at h
  · exact h

/-! ## Helper lemmas about the stemmer -/

theorem stemPrefixLoop_cases : ∀ (ps : List (List Nat)) (w : List Nat),
    KurdishStemmer.stemPrefixLoop ps w = w ∨
      (3 ≤ (KurdishStemmer.stemPrefixLoop ps w).length ∧
        (KurdishStemmer.stemPrefixLoop ps w).length ≤ w.length) := by
  intro ps
  induction ps with
  | nil => intro w; exact Or.inl rfl
  | cons p ps ih =>
    intro w
    rw [KurdishStemmer.stemPrefixLoop]
    split
    · next hc =>
      obtain ⟨-, h2⟩ := hc
      right
      rw [List.length_drop]
      omega
    · exact ih w

theorem stemSuffixLoop_cases : ∀ (xs : List (List Nat)) (w : List Nat),
    KurdishStemmer.stemSuffixLoop xs w = w ∨
      (3 ≤ (KurdishStemmer.stemSuffixLoop xs w).length ∧
        (KurdishStemmer.stemSuffixLoop xs w).length ≤ w.length) := by
  intro xs
  induction xs with
  | nil => intro w; exact Or.inl rfl
  | cons x xs ih =>
    intro w
    rw [KurdishStemmer.stemSuffixLoop]
    split
    · next hc =>
      obtain ⟨-, h2⟩ := hc
      right
      rw [List.length_take]
      omega
    · exact ih w

theorem stemPrefixLoop_eq_find : ∀ (ps : List (List Nat)) (w : List Nat),
    KurdishStemmer.stemPrefixLoop ps w =
      match ps.find? (fun q => q.isPrefixOf w && decide (3 ≤ w.length - q.length)) with
      | some q => w.drop q.length
      | none => w := by
  intro ps
  induction ps with
  | nil => intro w; rfl
  | cons p ps ih =>
    intro w
    rw [KurdishStemmer.stemPrefixLoop]
    by_cases hc : (p.isPrefixOf w ∧ p.length + 2 < w.length)
    · obtain ⟨hc1, hc2⟩ := hc
      have hpred : (p.isPrefixOf w && decide (3 ≤ w.length - p.length)) = true := by
        simp only [Bool.and_eq_true, decide_eq_true_eq]
        exact ⟨hc1, by omega⟩
      rw [if_pos ⟨hc1, hc2⟩, List.find?_cons]
      rw [hpred]
    · have hpred : (p.isPrefixOf w && decide (3 ≤ w.length - p.length)) = false := by
        cases hpw : p.isPrefixOf w
        · simp
        · simp only [Bool.true_and, decide_eq_false_iff_not]
          intro h3
          exact hc ⟨hpw, by omega⟩
      rw [if_neg hc, List.find?_cons]
      rw [hpred]
      exact ih w

theorem stemPrefixLoop_split : ∀ (ps : List (List Nat)) (w : List Nat),
    ∃ p, (p = [] ∨ p ∈ ps) ∧ w = p ++ KurdishStemmer.stemPrefixLoop ps w := by
  intro ps
  induction ps with
  | nil => intro w; exact ⟨[], Or.inl rfl, rfl⟩
  | cons p ps ih =>
    intro w
    rw [KurdishStemmer.stemPrefixLoop]
    split
    · next hc =>
      refine ⟨p, Or.inr (List.mem_cons_self _ _), ?_⟩
      exact (List.prefix_iff_eq_append.mp (List.isPrefixOf_iff_prefix.mp hc.1)).symm
    · obtain ⟨q, hq, hw⟩ := ih w
      exact ⟨q, hq.imp id (List.mem_cons_of_mem _), hw⟩

theorem stemSuffixLoop_split : ∀ (xs : List (List Nat)) (w : List Nat),
    ∃ x, (x = [] ∨ x ∈ xs) ∧ w = KurdishStemmer.stemSuffixLoop xs w ++ x := by
  intro xs
  induction xs with
  | nil => intro w; exact ⟨[], Or.inl rfl, by simp [KurdishStemmer.stemSuffixLoop]⟩
  | cons x xs ih =>
    intro w
    rw [KurdishStemmer.stemSuffixLoop]
    split
    · next hc =>
      refine ⟨x, Or.inr (List.mem_cons_self _ _), ?_⟩
      obtain ⟨u, hu⟩ := List.isSuffixOf_iff_suffix.mp hc.1
      have hlen : w.length - x.length = u.length := by
        rw [← hu, List.length_append]; omega
      rw [hlen, ← hu, List.take_left]
    · obtain ⟨q, hq, hw⟩ := ih w
      exact ⟨q, hq.imp id (List.mem_cons_of_mem _), hw⟩

/-! ## Claim theorems -/

/-- C1, counterexample: `normalize` is not idempotent.  On the single letter
`ئ` (U+0626) the first pass NFD-decomposes it to U+064A + U+0654 and drops the
mark, leaving Arabic YEH U+064A, which a second pass replaces by U+06CC. -/
theorem normalize_idempotent_cex :
    KurdishTokenizer.normalize (KurdishTokenizer.normalize [0x626]) ≠
      KurdishTokenizer.normalize [0x626] := by decide

/-- C1, amended: `normalize` is idempotent on every string that does not
contain U+0626 (Arabic YEH WITH HAMZA ABOVE, the Kurdish `ئ`). -/
theorem normalize_idempotent_no_hamza (s : List Nat) (h : (0x626 : Nat) ∉ s) :
    KurdishTokenizer.normalize (KurdishTokenizer.normalize s) =
      KurdishTokenizer.normalize s :=
  normalize_normalize h

/-- Witness for C1's amended theorem at a concrete input exercising every
normalization rule (Arabic KAF, HEH+ZWNJ, a decomposable letter). -/
theorem normalize_idempotent_no_hamza_witness :
    (0x626 : Nat) ∉ ([0x643, 0x647, 0x200C, 0x622] : List Nat) ∧
      KurdishTokenizer.normalize (KurdishTokenizer.normalize [0x643, 0x647, 0x200C, 0x622]) =
        KurdishTokenizer.normalize [0x643, 0x647, 0x200C, 0x622] :=
  ⟨by decide, normalize_idempotent_no_hamza _ (by decide)⟩

/-- C2, counterexample: tokenizing `"ئ"` produces the token `"ي"`, which
contains Arabic YEH U+064A, a character covered by the normalization rule
set. -/
theorem tokenize_unnormalized_char_cex :
    ∃ t, t ∈ KurdishTokenizer.tokenize [0x626] ∧ (0x64A : Nat) ∈ t :=
  ⟨[0x64A], by decide, by decide⟩

/-- C2, amended: no token produced by `tokenize` contains Arabic KAF U+0643,
a non-spacing-mark combining character, ZWNJ U+200C, or the HEH+ZWNJ sequence;
Arabic YEH U+064A however can survive (it is produced by the NFD decomposition
of U+0626 after the YEH replacement has already run). -/
theorem tokenize_chars_normalized (s t : List Nat)
    (ht : t ∈ KurdishTokenizer.tokenize s) :
    (∀ c ∈ t, isMn c = false ∧ c ≠ 0x643 ∧ c ≠ 0x200C) ∧
      ¬ ∃ u v, t = u ++ [0x647, 0x200C] ++ v := by
  have hmem : ∀ c ∈ t, c ∈ KurdishTokenizer.normalize s := tokenize_subset ht
  constructor
  · intro c hc
    obtain ⟨h1, h2, h3, -, -⟩ := normalize_mem (hmem c hc)
    exact ⟨h1, h3, h2⟩
  · rintro ⟨u, v, rfl⟩
    have hz : (0x200C : Nat) ∈ u ++ [0x647, 0x200C] ++ v := by simp
    exact (normalize_mem (hmem _ hz)).2.1 rfl

/-- Witness for C2's amended theorem on the token of `tokenize "ک"`. -/
theorem tokenize_chars_normalized_witness :
    (∀ c ∈ ([0x6A9] : List Nat), isMn c = false ∧ c ≠ 0x643 ∧ c ≠ 0x200C) ∧
      ¬ ∃ u v, ([0x6A9] : List Nat) = u ++ [0x647, 0x200C] ++ v :=
  tokenize_chars_normalized [0x6A9] [0x6A9] (by decide)

/-- C3: on the spec's example `"ئەمە دەقێکی کوردییە."` the code returns
`["يەمە", "دەقێکی", "کوردییە"]`: the first token starts with Arabic YEH U+064A
instead of the expected `ئ` U+0626, because `normalize` strips the hamza of
`ئ` via NFD.  The full stop is excluded as the claim says, but the claimed
token list `["ئەمە", ...]` is not what the code produces. -/
theorem tokenize_example_divergence :
    KurdishTokenizer.tokenize
        [0x626, 0x6D5, 0x645, 0x6D5, 0x20, 0x62F, 0x6D5, 0x642, 0x6CE, 0x6A9,
         0x6CC, 0x20, 0x6A9, 0x648, 0x631, 0x62F, 0x6CC, 0x6CC, 0x6D5, 0x2E] =
      [[0x64A, 0x6D5, 0x645, 0x6D5],
       [0x62F, 0x6D5, 0x642, 0x6CE, 0x6A9, 0x6CC],
       [0x6A9, 0x648, 0x631, 0x62F, 0x6CC, 0x6CC, 0x6D5]] ∧
    ([0x64A, 0x6D5, 0x645, 0x6D5] : List Nat) ≠ [0x626, 0x6D5, 0x645, 0x6D5] := by
  decide

/-- C4, counterexample: pre-normalizing changes the tokens of `"ئ"`:
`tokenize (normalize "ئ") = ["ی"]` while `tokenize "ئ" = ["ي"]`. -/
theorem tokenize_prenormalize_cex :
    KurdishTokenizer.tokenize (KurdishTokenizer.normalize [0x626]) ≠
      KurdishTokenizer.tokenize [0x626] := by decide

/-- C4, amended: for every string without U+0626, pre-normalizing is a no-op
for tokenization. -/
theorem tokenize_prenormalize_no_hamza (s : List Nat) (h : (0x626 : Nat) ∉ s) :
    KurdishTokenizer.tokenize (KurdishTokenizer.normalize s) =
      KurdishTokenizer.tokenize s := by
  simp only [KurdishTokenizer.tokenize, normalize_normalize h]

/-- Witness for C4's amended theorem on `"يك ك"`-like input. -/
theorem tokenize_prenormalize_no_hamza_witness :
    (0x626 : Nat) ∉ ([0x64A, 0x20, 0x643] : List Nat) ∧
      KurdishTokenizer.tokenize (KurdishTokenizer.normalize [0x64A, 0x20, 0x643]) =
        KurdishTokenizer.tokenize [0x64A, 0x20, 0x643] :=
  ⟨by decide, tokenize_prenormalize_no_hamza _ (by decide)⟩

/-- C5: `stem` never returns a result shorter than 3 characters unless it
returns the word unchanged. -/
theorem stem_min_length (w : List Nat) (h : KurdishStemmer.stem w ≠ w) :
    3 ≤ (KurdishStemmer.stem w).length := by
  rw [KurdishStemmer.stem] at h ⊢
  rcases stemPrefixLoop_cases KurdishStemmer.prefixes w with h1 | h1
  · rw [h1] at h ⊢
    rcases stemSuffixLoop_cases KurdishStemmer.suffixes w with h2 | h2
    · exact absurd h2 h
    · exact h2.1
  · rcases stemSuffixLoop_cases KurdishStemmer.suffixes
        (KurdishStemmer.stemPrefixLoop KurdishStemmer.prefixes w) with h2 | h2
    · rw [h2]
      exact h1.1
    · exact h2.1

/-- Witness for C5 at `"نەکور"`, which stems to the 3-letter `"کور"`. -/
theorem stem_min_length_witness :
    KurdishStemmer.stem [0x646, 0x6D5, 0x6A9, 0x648, 0x631] ≠
        [0x646, 0x6D5, 0x6A9, 0x648, 0x631] ∧
      3 ≤ (KurdishStemmer.stem [0x646, 0x6D5, 0x6A9, 0x648, 0x631]).length :=
  ⟨by decide, stem_min_length _ (by decide)⟩

/-- C6, counterexample: with prefix `"نە"`, 3-letter root `"کور"` and suffix
`"مان"`, the suffix loop reaches the earlier list entry `"ان"` first and strips
it, so the stem is `"کورم"`, not the root. -/
theorem stem_affix_roundtrip_cex :
    [0x646, 0x6D5] ∈ KurdishStemmer.prefixes ∧
    [0x645, 0x627, 0x646] ∈ KurdishStemmer.suffixes ∧
    ([0x6A9, 0x648, 0x631] : List Nat).length = 3 ∧
    KurdishStemmer.stem ([0x646, 0x6D5] ++ [0x6A9, 0x648, 0x631] ++ [0x645, 0x627, 0x646]) ≠
      [0x6A9, 0x648, 0x631] := by decide

/-- C6, amended: for every listed prefix `p`, every 3-character root `r` and
every listed suffix `x` other than `"مان"`, `"تان"`, `"یان"` (whose proper
suffix `"ان"` precedes them in the list and is stripped instead), `stem`
returns the root from `p ++ r ++ x`. -/
theorem stem_affix_roundtrip (p r x : List Nat) (hp : p ∈ KurdishStemmer.prefixes)
    (hr : r.length = 3) (hx : x ∈ KurdishStemmer.suffixes)
    (hx' : x ∉ ([[0x645, 0x627, 0x646], [0x62A, 0x627, 0x646],
      [0x6CC, 0x627, 0x646]] : List (List Nat))) :
    KurdishStemmer.stem (p ++ r ++ x) = r := by
  obtain ⟨a, b, c, rfl⟩ := List.length_eq_three.mp hr
  fin_cases hp <;> fin_cases hx <;>
    first
      | exact absurd (by decide) hx'
      | simp [KurdishStemmer.stem, KurdishStemmer.stemPrefixLoop,
          KurdishStemmer.stemSuffixLoop, KurdishStemmer.prefixes,
          KurdishStemmer.suffixes, List.isPrefixOf, List.isSuffixOf]

/-- Witness for C6's amended theorem at `"نە" ++ "کور" ++ "ەکان"`. -/
theorem stem_affix_roundtrip_witness :
    KurdishStemmer.stem
        ([0x646, 0x6D5] ++ [0x6A9, 0x648, 0x631] ++ [0x6D5, 0x6A9, 0x627, 0x646]) =
      [0x6A9, 0x648, 0x631] :=
  stem_affix_roundtrip _ _ _ (by decide) (by decide) (by decide) (by decide)

/-- C7, counterexample: `sentence_tokenize "یەک. دوو! سێ؟"` returns exactly
the two sentences `"یەک."` and `"دوو!"`; the remainder `"سێ؟"` appears in no
returned unit — it is dropped, not attached to the last one. -/
theorem sentence_example_cex :
    KurdishTokenizer.sentence_tokenize
        [0x6CC, 0x6D5, 0x6A9, 0x2E, 0x20, 0x62F, 0x648, 0x648, 0x21, 0x20,
         0x633, 0x6CE, 0x61F] =
      [[0x6CC, 0x6D5, 0x6A9, 0x2E], [0x62F, 0x648, 0x648, 0x21]] ∧
    ∀ t ∈ KurdishTokenizer.sentence_tokenize
        [0x6CC, 0x6D5, 0x6A9, 0x2E, 0x20, 0x62F, 0x648, 0x648, 0x21, 0x20,
         0x633, 0x6CE, 0x61F],
      (0x633 : Nat) ∉ t ∧ (0x6CE : Nat) ∉ t ∧ (0x61F : Nat) ∉ t := by
  decide

/-- C7, amended: `sentence_tokenize "یەک. دوو! سێ؟"` returns the two
sentences ending at `.` and `!`; the trailing `"سێ؟"` (no terminator in the
set `. ! ?`) is discarded because the fallback only fires when zero sentences
were found. -/
theorem sentence_example_amended :
    KurdishTokenizer.sentence_tokenize
        [0x6CC, 0x6D5, 0x6A9, 0x2E, 0x20, 0x62F, 0x648, 0x648, 0x21, 0x20,
         0x633, 0x6CE, 0x61F] =
      [[0x6CC, 0x6D5, 0x6A9, 0x2E], [0x62F, 0x648, 0x648, 0x21]] := by decide

/-- C8: the prefix stage of `stem` removes at most one prefix — the first
prefix in list order that starts the word and leaves a remainder of at least
3 characters — and a prefix is never stripped from a word shorter than the
prefix length plus 3. -/
theorem stem_prefix_guard_first_match (w p : List Nat)
    (hp : p ∈ KurdishStemmer.prefixes) :
    (w.length < p.length + 3 →
      KurdishStemmer.prefixes.find?
          (fun q => q.isPrefixOf w && decide (3 ≤ w.length - q.length)) ≠ some p) ∧
    (∀ q, KurdishStemmer.prefixes.find?
          (fun q => q.isPrefixOf w && decide (3 ≤ w.length - q.length)) = some q →
      KurdishStemmer.stemPrefixLoop KurdishStemmer.prefixes w = w.drop q.length) ∧
    (KurdishStemmer.prefixes.find?
          (fun q => q.isPrefixOf w && decide (3 ≤ w.length - q.length)) = none →
      KurdishStemmer.stemPrefixLoop KurdishStemmer.prefixes w = w) := by
  refine ⟨?_, ?_, ?_⟩
  · intro hlen heq
    have hq := List.find?_some heq
    simp only [Bool.and_eq_true, decide_eq_true_eq] at hq
    omega
  · intro q hq
    rw [stemPrefixLoop_eq_find, hq]
  · intro hq
    rw [stemPrefixLoop_eq_find, hq]

/-- Witness for C8 at the 4-letter word `"نەکو"` and the prefix `"نە"`: the
word is shorter than 2+3, no prefix qualifies, and the loop leaves the word
unchanged. -/
theorem stem_prefix_guard_first_match_witness :
    (KurdishStemmer.prefixes.find?
        (fun q => q.isPrefixOf [0x646, 0x6D5, 0x6A9, 0x648] &&
          decide (3 ≤ ([0x646, 0x6D5, 0x6A9, 0x648] : List Nat).length - q.length)) ≠
        some [0x646, 0x6D5]) ∧
      KurdishStemmer.stemPrefixLoop KurdishStemmer.prefixes
          [0x646, 0x6D5, 0x6A9, 0x648] = [0x646, 0x6D5, 0x6A9, 0x648] :=
  ⟨(stem_prefix_guard_first_match [0x646, 0x6D5, 0x6A9, 0x648] [0x646, 0x6D5]
      (by decide)).1 (by decide),
   (stem_prefix_guard_first_match [0x646, 0x6D5, 0x6A9, 0x648] [0x646, 0x6D5]
      (by decide)).2.2 (by decide)⟩

/-- C9: `sentence_tokenize` is total with the specified degenerate results:
empty input yields the empty sequence, and whenever the terminator scan finds
no sentence but the stripped normalized text is non-empty, the whole stripped
text is returned as the single sentence. -/
theorem sentence_tokenize_degenerate (s : List Nat)
    (h : KurdishTokenizer.sentScanAux [] (KurdishTokenizer.normalize s) = []) :
    KurdishTokenizer.sentence_tokenize ([] : List Nat) = [] ∧
    (pyStrip (KurdishTokenizer.normalize s) = [] →
      KurdishTokenizer.sentence_tokenize s = []) ∧
    (pyStrip (KurdishTokenizer.normalize s) ≠ [] →
      KurdishTokenizer.sentence_tokenize s = [pyStrip (KurdishTokenizer.normalize s)]) := by
  refine ⟨by decide, ?_, ?_⟩
  · intro hstrip
    simp only [KurdishTokenizer.sentence_tokenize, h, hstrip]
    simp
  · intro hstrip
    have hne : (pyStrip (KurdishTokenizer.normalize s)).isEmpty = false := by
      cases h' : pyStrip (KurdishTokenizer.normalize s) with
      | nil => exact absurd h' hstrip
      | cons a l => rfl
    simp only [KurdishTokenizer.sentence_tokenize, h]
    simp [hne]

/-- Witness for C9 at the terminator-free punctuation-only input `"؟"`. -/
theorem sentence_tokenize_degenerate_witness :
    KurdishTokenizer.sentence_tokenize [0x61F] =
      [pyStrip (KurdishTokenizer.normalize [0x61F])] :=
  (sentence_tokenize_degenerate [0x61F] (by decide)).2.2 (by decide)

/-- C10: `stem w` is a contiguous substring of `w`: the word splits as a
(possibly empty) listed prefix, the stem, and a (possibly empty) listed
suffix. -/
theorem stem_substring (w : List Nat) :
    ∃ p q, w = p ++ KurdishStemmer.stem w ++ q ∧
      (p = [] ∨ p ∈ KurdishStemmer.prefixes) ∧
      (q = [] ∨ q ∈ KurdishStemmer.suffixes) := by
  obtain ⟨p, hp, hw⟩ := stemPrefixLoop_split KurdishStemmer.prefixes w
  obtain ⟨q, hq, hmid⟩ := stemSuffixLoop_split KurdishStemmer.suffixes
    (KurdishStemmer.stemPrefixLoop KurdishStemmer.prefixes w)
  refine ⟨p, q, ?_, hp, hq⟩
  rw [KurdishStemmer.stem, List.append_assoc, ← hmid]
  exact hw

end KurdishNltk

